import Mathlib

/-
Verification of the myFM wrapper layer (`myfm/wrapper.py`).

The Python code operates on NumPy/SciPy arrays of IEEE doubles; we embed the
arithmetic over the real numbers (ideal, overflow/rounding-free semantics) and
sparse CSR structure over the rationals where exact evaluation matters.
`scipy.special.erf` and the standard normal CDF are embedded as the usual
integrals.  The compiled C++ trainer core (`myfm._myfm.create_train_fm`) is not
part of the repository sources; where a claim depends on it, a definition
modelled from the specification is used and marked as such.
-/

open MeasureTheory Set

namespace MyFM

/-- A dense matrix with `m` rows and `d` columns of real entries: the ideal
value-level view of a NumPy / SciPy-CSR design matrix. -/
abbrev Mat (m d : ℕ) := Fin m → Fin d → ℝ

/-- One parameter sample, mirroring the fields of the `FM` object exposed by
the trainer core: global bias `w0`, main-effect weights `w`, and the latent
factor matrix `V` (feature count × rank). -/
structure FM (d k : ℕ) where
  w0 : ℝ
  w : Fin d → ℝ
  V : Fin d → Fin k → ℝ

/-- One hyperparameter sample; the wrapper reads only the noise precision
`alpha` from it. -/
structure Hyper where
  alpha : ℝ

/-- The Gauss error function `erf x = (2/√π) ∫_0^x exp (-t²) dt`, the
embedding of `scipy.special.erf`. -/
noncomputable def erf (x : ℝ) : ℝ :=
  2 / Real.sqrt Real.pi * ∫ t in (0:ℝ)..x, Real.exp (-t ^ 2)

/-- The standard normal cumulative distribution function
`Φ z = (2π)^(-1/2) ∫_{-∞}^z exp (-t²/2) dt` (used by the spec to state the
classifier link). -/
noncomputable def stdNormalCDF (z : ℝ) : ℝ :=
  (Real.sqrt (2 * Real.pi))⁻¹ * ∫ t in Iic z, Real.exp (-t ^ 2 / 2)

/-- Dense branch of `elem_wise_square` (`X_2 = X_2 ** 2` on a NumPy array):
the element-wise square of a dense matrix. -/
noncomputable def elem_wise_square {m d : ℕ} (X : Mat m d) : Mat m d :=
  fun i j => X i j ^ 2

/-- Embedding of `MyFMRegressor._predict_score_point`, parametrised by the
class's `process_score` (Python resolves `cls.process_score` dynamically):
`sqt = (fm.V ** 2).sum(axis=1)`;
`pred = ((X.dot(fm.V) ** 2).sum(axis=1) - X_2.dot(sqt)) / 2`;
`pred += X.dot(fm.w)`; `pred += fm.w0`; `return cls.process_score(pred, hyper)`. -/
noncomputable def predict_score_point {m d k : ℕ} (process_score : ℝ → Hyper → ℝ)
    (fm : FM d k) (hyper : Hyper) (X X_2 : Mat m d) : Fin m → ℝ :=
  let sqt : Fin d → ℝ := fun j => ∑ f, fm.V j f ^ 2
  fun i =>
    let pred := ((∑ f, (∑ j, X i j * fm.V j f) ^ 2) - ∑ j, X_2 i j * sqt j) / 2
    let pred := pred + ∑ j, X i j * fm.w j
    let pred := pred + fm.w0
    process_score pred hyper

/-- Embedding of `MyFMRegressor._predict_score_mean`: raises
`RuntimeError("No available sample.")` when `self.fms_` is empty, otherwise
squares the design matrix, accumulates `_predict_score_point` over
`zip(self.fms_, self.hypers_)` starting from `predictions = 0`, and divides by
`len(self.fms_)`.  NumPy vector addition is embedded component-wise. -/
noncomputable def predict_score_mean {m d k : ℕ} (process_score : ℝ → Hyper → ℝ)
    (fms : List (FM d k)) (hypers : List Hyper) (X : Mat m d) :
    Except String (Fin m → ℝ) :=
  if fms.isEmpty then Except.error "No available sample."
  else
    let X_2 := elem_wise_square X
    Except.ok (fun i =>
      ((fms.zip hypers).foldl
        (fun predictions p =>
          predictions + predict_score_point process_score p.1 p.2 X X_2 i) 0)
        / (fms.length : ℝ))

/-- `MyFMRegressor.process_score`: the identity link of the regression task. -/
def MyFMRegressor.process_score (y : ℝ) (_hyper : Hyper) : ℝ := y

/-- `MyFMRegressor.predict`: returns `self._predict_score_mean(X)`. -/
noncomputable def MyFMRegressor.predict {m d k : ℕ}
    (fms : List (FM d k)) (hypers : List Hyper) (X : Mat m d) :
    Except String (Fin m → ℝ) :=
  predict_score_mean MyFMRegressor.process_score fms hypers X

/-- `MyFMClassifier.process_score`: the probit link as written in the code,
`(1 + special.erf(score * np.sqrt(hyper.alpha / 2))) / 2`. -/
noncomputable def MyFMClassifier.process_score (score : ℝ) (hyper : Hyper) : ℝ :=
  (1 + erf (score * Real.sqrt (hyper.alpha / 2))) / 2

/-- `MyFMClassifier.predict_proba`: returns `self._predict_score_mean(X)`,
where `_predict_score_point` now dispatches to the classifier's
`process_score`. -/
noncomputable def MyFMClassifier.predict_proba {m d k : ℕ}
    (fms : List (FM d k)) (hypers : List Hyper) (X : Mat m d) :
    Except String (Fin m → ℝ) :=
  predict_score_mean MyFMClassifier.process_score fms hypers X

/-- `MyFMClassifier.predict`: `self._predict_score_mean(X) > 0.5`,
element-wise. -/
noncomputable def MyFMClassifier.predict {m d k : ℕ}
    (fms : List (FM d k)) (hypers : List Hyper) (X : Mat m d) :
    Except String (Fin m → Prop) :=
  (MyFMClassifier.predict_proba fms hypers X).map (fun p => fun i => p i > 0.5)

/-- A SciPy CSR matrix at the value level: the three underlying arrays.  The
rational entries embed the exactly representable double values the wrapper
manipulates. -/
structure CSRMatrix where
  data : List ℚ
  indices : List ℕ
  indptr : List ℕ
deriving DecidableEq

/-- `X.copy()` on a SciPy sparse matrix: a deep copy, sharing no storage with
the original. -/
def CSRMatrix.copy (X : CSRMatrix) : CSRMatrix :=
  ⟨X.data, X.indices, X.indptr⟩

/-- Sparse branch of `elem_wise_square`: `X_2 = X.copy()` followed by the
in-place update `X_2.data[:] = X_2.data ** 2`, which rewrites the stored
values and leaves `indices`/`indptr` untouched. -/
def elem_wise_square_sparse (X : CSRMatrix) : CSRMatrix :=
  let X_2 := X.copy
  { X_2 with data := X_2.data.map (fun v => v ^ 2) }

/-- A store of `data` arrays addressed by position, modelling the NumPy
buffers that back CSR matrices; mutation of one buffer must not be visible
through another. -/
def Store := List (List ℚ)

/-- A CSR matrix whose `data` array lives in a `Store` at `dataAddr`. -/
structure CSRHandle where
  dataAddr : ℕ
  indices : List ℕ
  indptr : List ℕ
deriving DecidableEq

/-- Read the data buffer at address `a` (empty when out of range). -/
def storeRead (s : List (List ℚ)) (a : ℕ) : List ℚ := s.getD a []

/-- Allocate a fresh buffer holding `v`; returns the new store and the fresh
address. -/
def storeAlloc (s : List (List ℚ)) (v : List ℚ) : List (List ℚ) × ℕ :=
  (s ++ [v], s.length)

/-- `X.copy()` at the store level: allocates a fresh buffer containing a copy
of the original data array (SciPy sparse `copy` duplicates the underlying
arrays). -/
def CSRHandle.copy (X : CSRHandle) (s : List (List ℚ)) :
    CSRHandle × List (List ℚ) :=
  let p := storeAlloc s (storeRead s X.dataAddr)
  (⟨p.2, X.indices, X.indptr⟩, p.1)

/-- The in-place update `M.data[:] = M.data ** 2` on the buffer at address
`a`. -/
def dataSquareInPlace (a : ℕ) (s : List (List ℚ)) : List (List ℚ) :=
  s.set a ((storeRead s a).map (fun v => v ^ 2))

/-- Store-level embedding of the sparse branch of `elem_wise_square`:
`X_2 = X.copy()`, then `X_2.data[:] = X_2.data ** 2`, then return `X_2`.
The result pairs the returned handle with the post-call store, so that the
caller's view of `X` can be compared before and after. -/
def elem_wise_square_store (X : CSRHandle) (s : List (List ℚ)) :
    CSRHandle × List (List ℚ) :=
  let p := X.copy s
  (p.1, dataSquareInPlace p.1.dataAddr p.2)

/-- An IEEE double at the level of detail the finiteness check needs: either
an (exactly represented) finite value or one of the non-finite values. -/
inductive FloatVal where
  | finite (q : ℚ)
  | nan
  | posInf
  | negInf
deriving DecidableEq

/-- Whether a float value is finite (neither NaN nor ±infinity). -/
def FloatVal.isFinite : FloatVal → Bool
  | .finite _ => true
  | _ => false

/-- The held-out-pair check opening `MyFMRegressor.fit`:
`if (X_test is None and y_test is None): do_test = False`
`elif (X_test is not None and y_test is not None): do_test = True`
`else: raise RuntimeError("Must specify X_test and y_test.")`. -/
def check_held_out {A B : Type} (X_test : Option A) (y_test : Option B) :
    Except String Bool :=
  if X_test.isNone && y_test.isNone then Except.ok false
  else if X_test.isSome && y_test.isSome then Except.ok true
  else Except.error "Must specify X_test and y_test."

/-- The group-index branch of `fit`: when `self.group_index` is set,
`assert X.shape[1] == len(self.group_index)`; otherwise configure identical
groups.  An assertion failure is an error outcome. -/
def check_group_index (group_index : Option (List ℕ)) (n_features : ℕ) :
    Except String Unit :=
  match group_index with
  | some gi =>
    if n_features = gi.length then Except.ok () else Except.error "AssertionError"
  | none => Except.ok ()

/-- Embedding of the control flow of `MyFMRegressor.fit` up to the call of the
trainer core: the held-out check runs first, then the group-index check, and
only then is the trainer invoked (its behaviour is abstracted as `train`,
since `create_train_fm` is compiled code outside the wrapper). -/
def MyFMRegressor.fit {A B R : Type} (group_index : Option (List ℕ))
    (n_features : ℕ) (X_test : Option A) (y_test : Option B)
    (train : Unit → Except String R) : Except String R :=
  (check_held_out X_test y_test).bind fun _do_test =>
    (check_group_index group_index n_features).bind fun _ =>
      train ()

/-- Modelled from the spec: the trainer core `create_train_fm` (the compiled
`myfm._myfm` module, absent from the repository sources) builds the design
matrix and its element-wise-squared cache, which "must reject non-finite
values" (§4.1); on non-finite input it fails with a `NumericInstability`
condition instead of training.  `sample` abstracts the training itself. -/
def create_train_fm {R : Type} (X : List (List FloatVal))
    (sample : Unit → R) : Except String R :=
  if X.all (fun row => row.all FloatVal.isFinite) then Except.ok (sample ())
  else Except.error "NumericInstability"

/-- `fit` composed with the (spec-modelled) trainer core on a design matrix of
float values: the full path from `fit`'s entry to training. -/
def fit_train {A B R : Type} (group_index : Option (List ℕ))
    (X : List (List FloatVal)) (X_test : Option A) (y_test : Option B)
    (sample : Unit → R) : Except String R :=
  MyFMRegressor.fit group_index (X.headD []).length X_test y_test
    (fun _ => create_train_fm X sample)

/-- The progress callback `fit` builds when `callback=None`:
`pbar.update(1)`; `if i % 5: return False`; then the log line is assembled
from `hyper.alpha`, `fm.w0` and (when a held-out pair is given) the validation
metrics, `pbar.set_description(log_str)` is called, and `return False`.  Both
paths return `False`; the progress-bar and log-string side effects do not
influence the returned value. -/
def default_callback {d k : ℕ} (i : ℕ) (fm : FM d k) (hyper : Hyper) : Bool :=
  if i % 5 ≠ 0 then false
  else
    let _logged : ℝ × ℝ := (hyper.alpha, fm.w0)
    false

/-- Modelled from the spec: the iteration loop of `create_train_fm` (§4.4)
invokes the callback after each completed iteration and terminates early when
it returns `true`.  `go fuel i` runs up to `fuel` more iterations starting at
iteration index `i` and returns the index after the last completed iteration;
`step` abstracts one Gibbs sweep producing the current sample pair. -/
def train_loop_go {d k : ℕ} (callback : ℕ → FM d k → Hyper → Bool)
    (step : ℕ → FM d k × Hyper) : ℕ → ℕ → ℕ
  | 0, i => i
  | fuel + 1, i =>
    let p := step i
    if callback i p.1 p.2 then i + 1 else train_loop_go callback step fuel (i + 1)

/-- Modelled from the spec: run `n_iter` iterations from index 0, subject to
callback-requested early termination; returns the number of completed
iterations. -/
def train_loop {d k : ℕ} (n_iter : ℕ) (callback : ℕ → FM d k → Hyper → Bool)
    (step : ℕ → FM d k × Hyper) : ℕ :=
  train_loop_go callback step n_iter 0

/-- Folding repeated addition over the zip of two equal-length lists equals
the start value plus the indexed sum of the combined entries. -/
lemma foldl_zip_add_sum {α β : Type} (f : α → β → ℝ) (l₁ : List α) :
    ∀ (n : ℕ) (l₂ : List β) (h₁ : l₁.length = n) (h₂ : l₂.length = n) (a : ℝ),
      (l₁.zip l₂).foldl (fun acc p => acc + f p.1 p.2) a =
        a + ∑ j : Fin n, f (l₁.get (Fin.cast h₁.symm j)) (l₂.get (Fin.cast h₂.symm j)) := by
  induction l₁ with
  | nil =>
    intro n l₂ h₁ h₂ a
    cases n with
    | zero =>
      have hl₂ : l₂ = [] := List.length_eq_zero.mp h₂
      subst hl₂
      simp
    | succ n => simp at h₁
  | cons x t₁ ih =>
    intro n l₂ h₁ h₂ a
    cases l₂ with
    | nil =>
      simp only [List.length_cons, List.length_nil] at h₁ h₂
      omega
    | cons y t₂ =>
      cases n with
      | zero => simp at h₁
      | succ n =>
        have ht₁ : t₁.length = n := by simpa using h₁
        have ht₂ : t₂.length = n := by simpa using h₂
        simp only [List.zip_cons_cons, List.foldl_cons]
        rw [ih n t₂ ht₁ ht₂ (a + f x y), Fin.sum_univ_succ]
        have hbody : ∀ j : Fin n,
            f ((x :: t₁).get (Fin.cast h₁.symm j.succ))
              ((y :: t₂).get (Fin.cast h₂.symm j.succ)) =
              f (t₁.get (Fin.cast ht₁.symm j)) (t₂.get (Fin.cast ht₂.symm j)) :=
          fun j => rfl
        have hz : f ((x :: t₁).get (Fin.cast h₁.symm (0 : Fin (n + 1))))
            ((y :: t₂).get (Fin.cast h₂.symm (0 : Fin (n + 1)))) = f x y := rfl
        simp only [hbody, hz]
        ring

/-- `foldl_zip_add_sum` specialised to the accumulation performed inside
`_predict_score_mean`. -/
lemma foldl_predict_sum {m d k : ℕ} (process_score : ℝ → Hyper → ℝ)
    (X X_2 : Mat m d) (i : Fin m) (fms : List (FM d k)) (n : ℕ)
    (hypers : List Hyper) (hf : fms.length = n) (hh : hypers.length = n) (a : ℝ) :
    (fms.zip hypers).foldl
        (fun predictions p =>
          predictions + predict_score_point process_score p.1 p.2 X X_2 i) a =
      a + ∑ j : Fin n,
        predict_score_point process_score (fms.get (Fin.cast hf.symm j))
          (hypers.get (Fin.cast hh.symm j)) X X_2 i :=
  foldl_zip_add_sum
    (fun fm hy => predict_score_point process_score fm hy X X_2 i)
    fms n hypers hf hh a

/-- Exchanging the factor sum and the feature sum in the squared-cache term:
`X_2.dot(sqt)` equals the sum over factor columns of the dot product of the
squared features with the squared column. -/
lemma sum_sqt_swap {m d k : ℕ} (fm : FM d k) (X : Mat m d) (i : Fin m) :
    (∑ j, X i j ^ 2 * ∑ f, fm.V j f ^ 2) =
      ∑ f, ∑ j, X i j ^ 2 * fm.V j f ^ 2 := by
  simp_rw [Finset.mul_sum]
  exact Finset.sum_comm

end MyFM

namespace MyFM

/-- C1: `MyFMRegressor._predict_score_point(fm, hyper, X, X_2)` with `X_2` the
element-wise square of `X` applies the task link to the raw score whose row-i
value is `w0 + x_i·w + ½(Σ_f (x_i·V_f)² − Σ_f (x_i²·V_f²))`; the regressor's
identity link returns that raw score exactly. -/
theorem claim_C1 {m d k : ℕ} (process_score : ℝ → Hyper → ℝ) (fm : FM d k)
    (hyper : Hyper) (X X_2 : Mat m d) (h : X_2 = elem_wise_square X) :
    (∀ i, predict_score_point process_score fm hyper X X_2 i =
        process_score
          (fm.w0 + (∑ j, X i j * fm.w j) +
            1 / 2 * ((∑ f, (∑ j, X i j * fm.V j f) ^ 2) -
              ∑ f, ∑ j, X i j ^ 2 * fm.V j f ^ 2)) hyper) ∧
      ∀ i, predict_score_point MyFMRegressor.process_score fm hyper X X_2 i =
        fm.w0 + (∑ j, X i j * fm.w j) +
          1 / 2 * ((∑ f, (∑ j, X i j * fm.V j f) ^ 2) -
            ∑ f, ∑ j, X i j ^ 2 * fm.V j f ^ 2) := by
  subst h
  have hraw : ∀ i : Fin m,
      ((∑ f, (∑ j, X i j * fm.V j f) ^ 2) -
          ∑ j, elem_wise_square X i j * ∑ f, fm.V j f ^ 2) / 2 +
        (∑ j, X i j * fm.w j) + fm.w0 =
        fm.w0 + (∑ j, X i j * fm.w j) +
          1 / 2 * ((∑ f, (∑ j, X i j * fm.V j f) ^ 2) -
            ∑ f, ∑ j, X i j ^ 2 * fm.V j f ^ 2) := by
    intro i
    have hs := sum_sqt_swap fm X i
    simp only [elem_wise_square]
    rw [← hs]
    ring
  constructor
  · intro i
    simp only [predict_score_point]
    rw [hraw i]
  · intro i
    simp only [predict_score_point, MyFMRegressor.process_score]
    rw [hraw i]

/-- Witness for C1 at a concrete 1×1 input: with `w0 = 1`, `w = [2]`,
`V = [[3]]`, `x = [2]` the interaction term vanishes and the regressor score
is `1 + 2·2 = 5`. -/
theorem claim_C1_witness :
    ((fun _ _ => (4 : ℝ)) = elem_wise_square (m := 1) (d := 1) (fun _ _ => 2)) ∧
      predict_score_point (m := 1) MyFMRegressor.process_score
        (⟨1, fun _ => 2, fun _ _ => 3⟩ : FM 1 1) ⟨1⟩ (fun _ _ => 2) (fun _ _ => 4) 0 = 5 := by
  have hsq : (fun _ _ => (4 : ℝ)) = elem_wise_square (m := 1) (d := 1) (fun _ _ => 2) := by
    funext i j
    simp only [elem_wise_square]
    norm_num
  refine ⟨hsq, ?_⟩
  have h := (claim_C1 MyFMRegressor.process_score
    (⟨1, fun _ => 2, fun _ _ => 3⟩ : FM 1 1) ⟨1⟩ (fun _ _ => 2) (fun _ _ => 4) hsq).2 0
  rw [h]
  norm_num [Fin.sum_univ_one]

/-- C3: on a fitted model with `n` kept samples, `_predict_score_mean(X)`
equals `(1/n)` times the sum over samples of `_predict_score_point` at `X` and
its element-wise square; regression `predict` and classifier `predict_proba`
are exactly `_predict_score_mean` under their respective links, so each link
is applied per sample before averaging. -/
theorem claim_C3 {m d k : ℕ} (process_score : ℝ → Hyper → ℝ) (fms : List (FM d k))
    (hypers : List Hyper) (n : ℕ) (hf : fms.length = n) (hh : hypers.length = n)
    (hn : 0 < n) (X : Mat m d) :
    predict_score_mean process_score fms hypers X =
        Except.ok (fun i => 1 / (n : ℝ) *
          ∑ j : Fin n, predict_score_point process_score (fms.get (Fin.cast hf.symm j))
            (hypers.get (Fin.cast hh.symm j)) X (elem_wise_square X) i) ∧
      MyFMRegressor.predict fms hypers X =
        predict_score_mean MyFMRegressor.process_score fms hypers X ∧
      MyFMClassifier.predict_proba fms hypers X =
        predict_score_mean MyFMClassifier.process_score fms hypers X := by
  refine ⟨?_, rfl, rfl⟩
  have hemp : fms.isEmpty = false := by
    rw [List.isEmpty_eq_false]
    intro hnil
    rw [hnil] at hf
    simp at hf
    omega
  simp only [predict_score_mean, hemp, Bool.false_eq_true, if_false]
  congr 1
  funext i
  rw [foldl_predict_sum process_score X (elem_wise_square X) i fms n hypers hf hh 0]
  have hcast : (fms.length : ℝ) = (n : ℝ) := by
    rw [hf]
  rw [hcast]
  ring

/-- Witness for C3: one kept sample on a 1×1 design matrix; the mean of a
single sample is that sample's prediction. -/
theorem claim_C3_witness :
    [(⟨1, fun _ => 2, fun _ _ => 3⟩ : FM 1 1)].length = 1 ∧
      [(⟨1⟩ : Hyper)].length = 1 ∧ 0 < 1 ∧
      predict_score_mean (m := 1) MyFMRegressor.process_score
          [(⟨1, fun _ => 2, fun _ _ => 3⟩ : FM 1 1)] [⟨1⟩] (fun _ _ => 2) =
        Except.ok (fun i => 1 / ((1 : ℕ) : ℝ) *
          ∑ j : Fin 1, predict_score_point MyFMRegressor.process_score
            ([(⟨1, fun _ => 2, fun _ _ => 3⟩ : FM 1 1)].get (Fin.cast rfl j))
            ([(⟨1⟩ : Hyper)].get (Fin.cast rfl j)) (fun _ _ => 2)
            (elem_wise_square (fun _ _ => 2)) i) := by
  refine ⟨rfl, rfl, Nat.one_pos, ?_⟩
  exact (claim_C3 MyFMRegressor.process_score
    [(⟨1, fun _ => 2, fun _ _ => 3⟩ : FM 1 1)] [⟨1⟩] 1 rfl rfl Nat.one_pos
    (fun _ _ => 2)).1

/-- C4: with an empty list of kept samples, `_predict_score_mean`,
`predict` (regressor and classifier) and `predict_proba` all fail with the
"no trained samples" error (`RuntimeError("No available sample.")`) for every
input, and no prediction value is returned. -/
theorem claim_C4 {m d k : ℕ} (process_score : ℝ → Hyper → ℝ)
    (hypers : List Hyper) (X : Mat m d) :
    predict_score_mean (k := k) process_score [] hypers X =
        Except.error "No available sample." ∧
      MyFMRegressor.predict (k := k) [] hypers X =
        Except.error "No available sample." ∧
      MyFMClassifier.predict_proba (k := k) [] hypers X =
        Except.error "No available sample." ∧
      MyFMClassifier.predict (k := k) [] hypers X =
        Except.error "No available sample." :=
  ⟨rfl, rfl, rfl, rfl⟩

/-- C5: `MyFMRegressor.fit` rejects a partially specified held-out pair
before any training happens (the trainer is never consulted on the error
path), and proceeds to the trainer when both or neither of `X_test`, `y_test`
are given. -/
theorem claim_C5 {A B R : Type} (n_features : ℕ) (X_test : Option A)
    (y_test : Option B) (train : Unit → Except String R) :
    (X_test.isSome ≠ y_test.isSome →
        MyFMRegressor.fit none n_features X_test y_test train =
          Except.error "Must specify X_test and y_test.") ∧
      (X_test.isSome = y_test.isSome →
        MyFMRegressor.fit none n_features X_test y_test train = train ()) := by
  constructor <;> intro h <;>
    cases X_test <;> cases y_test <;>
      simp_all [MyFMRegressor.fit, check_held_out, check_group_index, Except.bind]

/-- Witness for C5: giving only `X_test` errors; giving neither reaches the
trainer. -/
theorem claim_C5_witness :
    ((some 0 : Option ℕ).isSome ≠ (none : Option ℕ).isSome ∧
        MyFMRegressor.fit none 1 (some 0) (none : Option ℕ)
          (fun _ => Except.ok 7) = Except.error "Must specify X_test and y_test.") ∧
      ((none : Option ℕ).isSome = (none : Option ℕ).isSome ∧
        MyFMRegressor.fit (A := ℕ) (B := ℕ) none 1 none none
          (fun _ => Except.ok 7) = Except.ok 7) :=
  ⟨⟨by decide, (claim_C5 1 (some 0) none (fun _ => Except.ok 7)).1 (by decide)⟩,
    ⟨rfl, (claim_C5 (A := ℕ) (B := ℕ) 1 none none (fun _ => Except.ok 7)).2 rfl⟩⟩

/-- C6: when the input design matrix contains a non-finite value (NaN or an
infinity), `fit` fails before training: no training result is ever returned.
The rejection itself happens in the trainer core's design-matrix
construction, which is modelled from the spec (§4.1). -/
theorem claim_C6 {A B R : Type} (group_index : Option (List ℕ))
    (X : List (List FloatVal)) (X_test : Option A) (y_test : Option B)
    (sample : Unit → R)
    (h : ∃ row ∈ X, ∃ v ∈ row, v.isFinite = false) :
    ∀ r : R, fit_train group_index X X_test y_test sample ≠ Except.ok r := by
  intro r
  unfold fit_train MyFMRegressor.fit
  cases hho : check_held_out X_test y_test with
  | error e => simp [hho, Except.bind]
  | ok b =>
    cases hgi : check_group_index group_index (X.headD []).length with
    | error e => simp [hho, hgi, Except.bind]
    | ok u =>
      simp only [hho, hgi, Except.bind]
      unfold create_train_fm
      have hall : X.all (fun row => row.all FloatVal.isFinite) = false := by
        obtain ⟨row, hrow, v, hv, hfin⟩ := h
        rw [Bool.eq_false_iff]
        intro hcontra
        rw [List.all_eq_true] at hcontra
        have := hcontra row hrow
        rw [List.all_eq_true] at this
        have := this v hv
        rw [hfin] at this
        exact Bool.false_ne_true this
      rw [hall]
      simp

/-- Witness for C6: a 1×1 matrix holding NaN is rejected. -/
theorem claim_C6_witness :
    (∃ row ∈ [[FloatVal.nan]], ∃ v ∈ row, v.isFinite = false) ∧
      ∀ r : ℕ, fit_train (A := ℕ) (B := ℕ) none [[FloatVal.nan]] none none
        (fun _ => 0) ≠ Except.ok r :=
  ⟨by decide,
    claim_C6 none [[FloatVal.nan]] none none (fun _ => 0) (by decide)⟩

/-- C8: on a sparse (CSR) matrix, `elem_wise_square` preserves the sparsity
pattern (`indices` and `indptr` unchanged) and squares exactly the stored
values; on a dense matrix it is the element-wise square. -/
theorem claim_C8 {m d : ℕ} (X : CSRMatrix) (D : Mat m d) :
    (elem_wise_square_sparse X).indices = X.indices ∧
      (elem_wise_square_sparse X).indptr = X.indptr ∧
      (elem_wise_square_sparse X).data = X.data.map (fun v => v ^ 2) ∧
      ∀ i j, elem_wise_square D i j = D i j * D i j :=
  ⟨rfl, rfl, rfl, fun i j => pow_two (D i j)⟩

/-- Reading the freshly appended buffer. -/
lemma storeRead_append_self (s : List (List ℚ)) (v : List ℚ) :
    storeRead (s ++ [v]) s.length = v := by
  unfold storeRead
  rw [List.getD_eq_getElem?_getD, List.getElem?_append]
  simp

/-- Reading an existing buffer is unaffected by appending a new one. -/
lemma storeRead_append_lt (s : List (List ℚ)) (v : List ℚ) (a : ℕ)
    (h : a < s.length) : storeRead (s ++ [v]) a = storeRead s a := by
  unfold storeRead
  rw [List.getD_eq_getElem?_getD, List.getD_eq_getElem?_getD,
    List.getElem?_append, if_pos h]

/-- C9: `elem_wise_square` never mutates its argument: the data buffer the
argument references holds exactly the same values after the call, because the
in-place squaring is performed on the buffer of a fresh copy.  The returned
matrix's buffer holds the squared values. -/
theorem claim_C9 (X : CSRHandle) (s : List (List ℚ)) (h : X.dataAddr < s.length) :
    storeRead (elem_wise_square_store X s).2 X.dataAddr = storeRead s X.dataAddr ∧
      storeRead (elem_wise_square_store X s).2
          (elem_wise_square_store X s).1.dataAddr =
        (storeRead s X.dataAddr).map (fun v => v ^ 2) := by
  have hne : s.length ≠ X.dataAddr := Nat.ne_of_gt h
  constructor
  · show storeRead
        ((s ++ [storeRead s X.dataAddr]).set s.length
          ((storeRead (s ++ [storeRead s X.dataAddr]) s.length).map (fun v => v ^ 2)))
        X.dataAddr = storeRead s X.dataAddr
    unfold storeRead
    rw [List.getD_eq_getElem?_getD, List.getElem?_set_ne hne,
      ← List.getD_eq_getElem?_getD]
    exact storeRead_append_lt s _ X.dataAddr h
  · show storeRead
        ((s ++ [storeRead s X.dataAddr]).set s.length
          ((storeRead (s ++ [storeRead s X.dataAddr]) s.length).map (fun v => v ^ 2)))
        s.length = (storeRead s X.dataAddr).map (fun v => v ^ 2)
    rw [storeRead_append_self]
    unfold storeRead
    rw [List.getD_eq_getElem?_getD]
    rw [List.getElem?_set_self (by simp)]
    rfl

/-- Witness for C9: a store holding one buffer `[2]`; after the call the
original buffer still reads `[2]` and the copy reads `[4]`. -/
theorem claim_C9_witness :
    (⟨0, [], []⟩ : CSRHandle).dataAddr < ([[(2 : ℚ)]] : List (List ℚ)).length ∧
      storeRead (elem_wise_square_store ⟨0, [], []⟩ [[(2 : ℚ)]]).2 0 =
          storeRead [[(2 : ℚ)]] 0 ∧
        storeRead (elem_wise_square_store ⟨0, [], []⟩ [[(2 : ℚ)]]).2
            (elem_wise_square_store ⟨0, [], []⟩ [[(2 : ℚ)]]).1.dataAddr =
          (storeRead [[(2 : ℚ)]] 0).map (fun v => v ^ 2) :=
  ⟨by decide, claim_C9 ⟨0, [], []⟩ [[(2 : ℚ)]] (by decide)⟩

/-- C10: the progress callback `fit` builds when `callback=None` returns
`False` on every `(iteration, parameter sample, hyper sample)` triple, so the
(spec-modelled) training loop never stops early and completes all `n_iter`
iterations. -/
theorem claim_C10 {d k : ℕ} (n_iter : ℕ) (step : ℕ → FM d k × Hyper) :
    (∀ (i : ℕ) (fm : FM d k) (hyper : Hyper), default_callback i fm hyper = false) ∧
      train_loop n_iter default_callback step = n_iter := by
  have hcb : ∀ (i : ℕ) (fm : FM d k) (hyper : Hyper),
      default_callback i fm hyper = false := by
    intro i fm hyper
    unfold default_callback
    split <;> rfl
  refine ⟨hcb, ?_⟩
  have hgo : ∀ fuel i,
      train_loop_go (default_callback (d := d) (k := k)) step fuel i = i + fuel := by
    intro fuel
    induction fuel with
    | zero => intro i; simp [train_loop_go]
    | succ f ih =>
      intro i
      simp only [train_loop_go, hcb, Bool.false_eq_true, if_false, ih]
      omega
  rw [train_loop, hgo n_iter 0]
  omega

/-- The Gaussian `exp (-t²)` is integrable on the line. -/
lemma gauss_integrable : MeasureTheory.Integrable (fun t : ℝ => Real.exp (-t ^ 2)) := by
  have h : MeasureTheory.Integrable (fun x : ℝ => Real.exp (-(1 : ℝ) * x ^ 2)) :=
    integrable_exp_neg_mul_sq one_pos
  simpa using h

/-- The Gaussian `exp (-t²/2)` is integrable on the line. -/
lemma gauss2_integrable : MeasureTheory.Integrable (fun t : ℝ => Real.exp (-t ^ 2 / 2)) := by
  have h : MeasureTheory.Integrable (fun x : ℝ => Real.exp (-(1 / 2 : ℝ) * x ^ 2)) :=
    integrable_exp_neg_mul_sq (by norm_num)
  have he : (fun x : ℝ => Real.exp (-(1 / 2 : ℝ) * x ^ 2)) =
      fun t : ℝ => Real.exp (-t ^ 2 / 2) := by
    funext t
    congr 1
    ring
  rwa [he] at h

/-- The full Gaussian integral `∫ exp (-t²) = √π`. -/
lemma gauss_total : (∫ t : ℝ, Real.exp (-t ^ 2)) = Real.sqrt Real.pi := by
  have h := integral_gaussian 1
  simpa using h

/-- The full Gaussian integral at variance one: `∫ exp (-t²/2) = √(2π)`. -/
lemma gauss2_total : (∫ t : ℝ, Real.exp (-t ^ 2 / 2)) = Real.sqrt (2 * Real.pi) := by
  have h := integral_gaussian (1 / 2)
  have he : Real.pi / (1 / 2) = 2 * Real.pi := by ring
  rw [he] at h
  calc (∫ t : ℝ, Real.exp (-t ^ 2 / 2))
      = ∫ x : ℝ, Real.exp (-(1 / 2 : ℝ) * x ^ 2) := by
        congr 1
        funext t
        congr 1
        ring
    _ = Real.sqrt (2 * Real.pi) := h

/-- Right half of the Gaussian integral. -/
lemma gauss_Ioi : (∫ t in Ioi (0 : ℝ), Real.exp (-t ^ 2)) = Real.sqrt Real.pi / 2 := by
  have h1 : (∫ t : ℝ, Real.exp (-t ^ 2)) = 2 * ∫ t in Ioi (0 : ℝ), Real.exp (-t ^ 2) := by
    rw [← integral_comp_abs]
    congr 1
    funext t
    rw [sq_abs]
  rw [gauss_total] at h1
  linarith

/-- Left half of the Gaussian integral. -/
lemma gauss_Iic : (∫ t in Iic (0 : ℝ), Real.exp (-t ^ 2)) = Real.sqrt Real.pi / 2 := by
  have h := integral_comp_neg_Iic (0 : ℝ) (fun t => Real.exp (-t ^ 2))
  rw [neg_zero] at h
  rw [← gauss_Ioi, ← h]
  congr 1
  funext t
  rw [neg_sq]

/-- Left half of the variance-one Gaussian integral. -/
lemma gauss2_Iic :
    (∫ t in Iic (0 : ℝ), Real.exp (-t ^ 2 / 2)) = Real.sqrt (2 * Real.pi) / 2 := by
  have hcompl := integral_add_compl measurableSet_Iic gauss2_integrable (s := Iic (0:ℝ))
  rw [compl_Iic, gauss2_total] at hcompl
  have hsymm : (∫ t in Iic (0 : ℝ), Real.exp (-t ^ 2 / 2)) =
      ∫ t in Ioi (0 : ℝ), Real.exp (-t ^ 2 / 2) := by
    have h := integral_comp_neg_Iic (0 : ℝ) (fun t => Real.exp (-t ^ 2 / 2))
    rw [neg_zero] at h
    rw [← h]
    congr 1
    funext t
    rw [neg_sq]
  linarith

/-- Splitting the normal CDF at zero. -/
lemma stdNormalCDF_eq_half_add (z : ℝ) :
    stdNormalCDF z =
      1 / 2 + (Real.sqrt (2 * Real.pi))⁻¹ * ∫ t in (0:ℝ)..z, Real.exp (-t ^ 2 / 2) := by
  unfold stdNormalCDF
  have hsub : (∫ t in Iic z, Real.exp (-t ^ 2 / 2)) -
      ∫ t in Iic (0:ℝ), Real.exp (-t ^ 2 / 2) =
      ∫ t in (0:ℝ)..z, Real.exp (-t ^ 2 / 2) :=
    intervalIntegral.integral_Iic_sub_Iic gauss2_integrable.integrableOn
      gauss2_integrable.integrableOn
  have hIic : (∫ t in Iic z, Real.exp (-t ^ 2 / 2)) =
      Real.sqrt (2 * Real.pi) / 2 + ∫ t in (0:ℝ)..z, Real.exp (-t ^ 2 / 2) := by
    rw [← hsub, gauss2_Iic]
    ring
  have hpos : (0 : ℝ) < Real.sqrt (2 * Real.pi) := Real.sqrt_pos.mpr (by positivity)
  rw [hIic, mul_add, ← mul_div_assoc, inv_mul_cancel₀ hpos.ne']

/-- The substitution `t = u·√2` in the centred Gaussian interval integral. -/
lemma gauss2_interval_sub (z : ℝ) :
    (∫ t in (0:ℝ)..z, Real.exp (-t ^ 2 / 2)) =
      Real.sqrt 2 * ∫ u in (0:ℝ)..(z / Real.sqrt 2), Real.exp (-u ^ 2) := by
  have hs2 : (0 : ℝ) < Real.sqrt 2 := Real.sqrt_pos.mpr two_pos
  have he : (∫ t in (0:ℝ)..z, Real.exp (-t ^ 2 / 2))
      = ∫ t in (0:ℝ)..z, Real.exp (-(t / Real.sqrt 2) ^ 2) := by
    refine intervalIntegral.integral_congr ?_
    intro t _
    show Real.exp (-t ^ 2 / 2) = Real.exp (-(t / Real.sqrt 2) ^ 2)
    congr 1
    rw [div_pow, Real.sq_sqrt (by norm_num : (0:ℝ) ≤ 2)]
    ring
  have hcomp := intervalIntegral.integral_comp_div (a := 0) (b := z)
    (fun u => Real.exp (-u ^ 2)) hs2.ne'
  rw [zero_div, smul_eq_mul] at hcomp
  rw [he]
  exact hcomp

/-- The classical identity `Φ z = (1 + erf (z/√2)) / 2` relating the normal
CDF to the error function. -/
lemma stdNormalCDF_eq_erf (z : ℝ) :
    stdNormalCDF z = (1 + erf (z / Real.sqrt 2)) / 2 := by
  rw [stdNormalCDF_eq_half_add, gauss2_interval_sub]
  unfold erf
  have h2 : Real.sqrt (2 * Real.pi) = Real.sqrt 2 * Real.sqrt Real.pi :=
    Real.sqrt_mul (by norm_num) _
  have hs2 : (0 : ℝ) < Real.sqrt 2 := Real.sqrt_pos.mpr two_pos
  have hsp : (0 : ℝ) < Real.sqrt Real.pi := Real.sqrt_pos.mpr Real.pi_pos
  rw [h2]
  field_simp
  ring

/-- The centred Gaussian interval integral is at most the right half. -/
lemma gauss_interval_le_Ioi (x : ℝ) (hx : 0 ≤ x) :
    (∫ t in (0:ℝ)..x, Real.exp (-t ^ 2)) ≤ Real.sqrt Real.pi / 2 := by
  rw [intervalIntegral.integral_of_le hx, ← gauss_Ioi]
  refine setIntegral_mono_set gauss_integrable.integrableOn ?_ ?_
  · exact Filter.Eventually.of_forall fun t => (Real.exp_pos _).le
  · exact (Ioc_subset_Ioi_self).eventuallyLE

/-- The Gaussian interval integral ending at zero is at most the left half. -/
lemma gauss_interval_le_Iic (x : ℝ) (hx : x ≤ 0) :
    (∫ t in x..(0:ℝ), Real.exp (-t ^ 2)) ≤ Real.sqrt Real.pi / 2 := by
  rw [intervalIntegral.integral_of_le hx, ← gauss_Iic]
  refine setIntegral_mono_set gauss_integrable.integrableOn ?_ ?_
  · exact Filter.Eventually.of_forall fun t => (Real.exp_pos _).le
  · exact (Ioc_subset_Iic_self).eventuallyLE

/-- The error function never exceeds one. -/
lemma erf_le_one (x : ℝ) : erf x ≤ 1 := by
  unfold erf
  have hsp : (0 : ℝ) < Real.sqrt Real.pi := Real.sqrt_pos.mpr Real.pi_pos
  rcases le_or_lt 0 x with hx | hx
  · have h1 := gauss_interval_le_Ioi x hx
    have h2 : 2 / Real.sqrt Real.pi * (Real.sqrt Real.pi / 2) = 1 := by
      field_simp
    calc 2 / Real.sqrt Real.pi * ∫ t in (0:ℝ)..x, Real.exp (-t ^ 2)
        ≤ 2 / Real.sqrt Real.pi * (Real.sqrt Real.pi / 2) :=
          mul_le_mul_of_nonneg_left h1 (by positivity)
      _ = 1 := h2
  · have hneg : (∫ t in (0:ℝ)..x, Real.exp (-t ^ 2)) ≤ 0 := by
      rw [intervalIntegral.integral_symm]
      have h0 : 0 ≤ ∫ t in x..(0:ℝ), Real.exp (-t ^ 2) :=
        intervalIntegral.integral_nonneg hx.le (fun u _ => (Real.exp_pos _).le)
      linarith
    have hc : (0:ℝ) ≤ 2 / Real.sqrt Real.pi := by positivity
    nlinarith

/-- The error function is at least minus one. -/
lemma neg_one_le_erf (x : ℝ) : -1 ≤ erf x := by
  unfold erf
  have hsp : (0 : ℝ) < Real.sqrt Real.pi := Real.sqrt_pos.mpr Real.pi_pos
  rcases le_or_lt 0 x with hx | hx
  · have h0 : 0 ≤ ∫ t in (0:ℝ)..x, Real.exp (-t ^ 2) :=
      intervalIntegral.integral_nonneg hx (fun u _ => (Real.exp_pos _).le)
    have hc : (0:ℝ) ≤ 2 / Real.sqrt Real.pi := by positivity
    nlinarith
  · have h1 := gauss_interval_le_Iic x hx.le
    have hsym : (∫ t in (0:ℝ)..x, Real.exp (-t ^ 2)) =
        -∫ t in x..(0:ℝ), Real.exp (-t ^ 2) :=
      intervalIntegral.integral_symm x 0
    rw [hsym, mul_neg]
    have hc : (0:ℝ) < 2 / Real.sqrt Real.pi := by positivity
    have hmul := mul_le_mul_of_nonneg_left h1 hc.le
    have h2 : 2 / Real.sqrt Real.pi * (Real.sqrt Real.pi / 2) = 1 := by
      field_simp
    linarith

/-- The error function is strictly increasing. -/
lemma erf_lt_erf_of_lt (a b : ℝ) (hab : a < b) : erf a < erf b := by
  unfold erf
  have hadd : (∫ t in (0:ℝ)..a, Real.exp (-t ^ 2)) + ∫ t in a..b, Real.exp (-t ^ 2) =
      ∫ t in (0:ℝ)..b, Real.exp (-t ^ 2) :=
    intervalIntegral.integral_add_adjacent_intervals
      gauss_integrable.intervalIntegrable gauss_integrable.intervalIntegrable
  have hpos : 0 < ∫ t in a..b, Real.exp (-t ^ 2) :=
    intervalIntegral.intervalIntegral_pos_of_pos
      gauss_integrable.intervalIntegrable (fun t => Real.exp_pos _) hab
  have hsp : (0 : ℝ) < Real.sqrt Real.pi := Real.sqrt_pos.mpr Real.pi_pos
  have hc : (0:ℝ) < 2 / Real.sqrt Real.pi := by positivity
  have hlt : (∫ t in (0:ℝ)..a, Real.exp (-t ^ 2)) <
      ∫ t in (0:ℝ)..b, Real.exp (-t ^ 2) := by
    linarith
  exact mul_lt_mul_of_pos_left hlt hc

/-- What the classifier link actually computes: `Φ(score · √alpha)`, written
in the code as `(1 + erf(score · √(alpha/2))) / 2`. -/
lemma clf_process_score_eq_cdf (s : ℝ) (h : Hyper) (ha : 0 ≤ h.alpha) :
    MyFMClassifier.process_score s h = stdNormalCDF (s * Real.sqrt h.alpha) := by
  rw [stdNormalCDF_eq_erf]
  unfold MyFMClassifier.process_score
  have harg : s * Real.sqrt (h.alpha / 2) = s * Real.sqrt h.alpha / Real.sqrt 2 := by
    rw [Real.sqrt_div ha, mul_div_assoc]
  rw [harg]

/-- The classifier link always lands at or above zero. -/
lemma clf_process_score_nonneg (s : ℝ) (h : Hyper) :
    0 ≤ MyFMClassifier.process_score s h := by
  unfold MyFMClassifier.process_score
  have := neg_one_le_erf (s * Real.sqrt (h.alpha / 2))
  linarith

/-- The classifier link never exceeds one. -/
lemma clf_process_score_le_one (s : ℝ) (h : Hyper) :
    MyFMClassifier.process_score s h ≤ 1 := by
  unfold MyFMClassifier.process_score
  have := erf_le_one (s * Real.sqrt (h.alpha / 2))
  linarith

/-- C2 counterexample: at raw score `1` and noise precision `alpha = 2`, the
classifier link does not equal `Φ(s·√(alpha/2))`: the code computes
`Φ(s·√alpha) = Φ(√2)`, which differs from `Φ(1)` by strict monotonicity of
the normal CDF. -/
theorem claim_C2_counterexample :
    MyFMClassifier.process_score 1 ⟨2⟩ ≠ stdNormalCDF (1 * Real.sqrt ((2:ℝ) / 2)) := by
  have halpha : ((⟨2⟩ : Hyper)).alpha = 2 := rfl
  rw [clf_process_score_eq_cdf 1 ⟨2⟩ (by rw [halpha]; norm_num), halpha, one_mul]
  have h2 : (1:ℝ) * Real.sqrt (2 / 2) = 1 := by
    norm_num
  rw [h2]
  have hs2 : (0:ℝ) < Real.sqrt 2 := Real.sqrt_pos.mpr two_pos
  have h1lt : (1:ℝ) < Real.sqrt 2 := by
    nlinarith [Real.sq_sqrt (by norm_num : (0:ℝ) ≤ 2), Real.sqrt_nonneg 2]
  have hmono : stdNormalCDF 1 < stdNormalCDF (Real.sqrt 2) := by
    rw [stdNormalCDF_eq_erf, stdNormalCDF_eq_erf]
    have hq : Real.sqrt 2 / Real.sqrt 2 = 1 := div_self hs2.ne'
    rw [hq]
    have hlt : (1:ℝ) / Real.sqrt 2 < 1 := (div_lt_one hs2).mpr h1lt
    have := erf_lt_erf_of_lt (1 / Real.sqrt 2) 1 hlt
    linarith
  exact ne_of_gt hmono

/-- C2 (amended): for every hyperparameter sample with `alpha ≥ 0` and every
score `s`, `MyFMClassifier.process_score(s, hyper)` equals `Φ(s·√alpha)`
(equivalently `(1 + erf(s·√(alpha/2)))/2`), where `Φ` is the standard normal
CDF. -/
theorem claim_C2 (s : ℝ) (h : Hyper) (ha : 0 ≤ h.alpha) :
    MyFMClassifier.process_score s h = stdNormalCDF (s * Real.sqrt h.alpha) :=
  clf_process_score_eq_cdf s h ha

/-- Witness for the amended C2 at `s = 0`, `alpha = 1`. -/
theorem claim_C2_witness :
    (0:ℝ) ≤ ((⟨1⟩ : Hyper)).alpha ∧
      MyFMClassifier.process_score 0 ⟨1⟩ =
        stdNormalCDF (0 * Real.sqrt ((⟨1⟩ : Hyper)).alpha) :=
  ⟨zero_le_one, claim_C2 0 ⟨1⟩ zero_le_one⟩

/-- Repeated addition of values in `[0, 1]` stays between the start value and
the start value plus the number of terms. -/
lemma foldl_add_bounds {γ : Type} (g : γ → ℝ) :
    ∀ (l : List γ), (∀ x ∈ l, 0 ≤ g x ∧ g x ≤ 1) → ∀ a : ℝ,
      a ≤ l.foldl (fun acc x => acc + g x) a ∧
        l.foldl (fun acc x => acc + g x) a ≤ a + l.length := by
  intro l
  induction l with
  | nil =>
    intro _ a
    simp
  | cons x t ih =>
    intro hg a
    have hx := hg x (List.mem_cons_self x t)
    have ht : ∀ y ∈ t, 0 ≤ g y ∧ g y ≤ 1 := fun y hy => hg y (List.mem_cons_of_mem x hy)
    have hrec := ih ht (a + g x)
    simp only [List.foldl_cons, List.length_cons]
    constructor
    · linarith [hrec.1]
    · push_cast
      linarith [hrec.2]

/-- `foldl_add_bounds` specialised to the accumulation inside
`_predict_score_mean` under the classifier link. -/
lemma foldl_predict_bounds {m d k : ℕ} (fms : List (FM d k)) (hypers : List Hyper)
    (X X_2 : Mat m d) (i : Fin m)
    (hterm : ∀ q ∈ fms.zip hypers,
      0 ≤ predict_score_point MyFMClassifier.process_score q.1 q.2 X X_2 i ∧
        predict_score_point MyFMClassifier.process_score q.1 q.2 X X_2 i ≤ 1) :
    0 ≤ (fms.zip hypers).foldl
        (fun predictions p =>
          predictions + predict_score_point MyFMClassifier.process_score p.1 p.2 X X_2 i) 0 ∧
      (fms.zip hypers).foldl
        (fun predictions p =>
          predictions + predict_score_point MyFMClassifier.process_score p.1 p.2 X X_2 i) 0 ≤
        0 + ((fms.zip hypers).length : ℝ) := by
  exact foldl_add_bounds
    (fun q : FM d k × Hyper => predict_score_point MyFMClassifier.process_score q.1 q.2 X X_2 i)
    (fms.zip hypers) hterm 0

/-- C7: with a non-empty ensemble whose noise precisions are non-negative,
every element of `MyFMClassifier.predict_proba(X)` lies in `[0, 1]`. -/
theorem claim_C7 {m d k : ℕ} (fms : List (FM d k)) (hypers : List Hyper)
    (X : Mat m d) (hne : fms ≠ []) (_hlen : fms.length = hypers.length)
    (_ha : ∀ h ∈ hypers, 0 ≤ h.alpha) :
    ∀ p, MyFMClassifier.predict_proba fms hypers X = Except.ok p →
      ∀ i, 0 ≤ p i ∧ p i ≤ 1 := by
  intro p hp i
  have hemp : fms.isEmpty = false := List.isEmpty_eq_false.mpr hne
  unfold MyFMClassifier.predict_proba predict_score_mean at hp
  rw [hemp] at hp
  simp only [Bool.false_eq_true, if_false] at hp
  have hfun := Except.ok.inj hp
  have hpi : p i = ((fms.zip hypers).foldl
      (fun predictions p =>
        predictions + predict_score_point MyFMClassifier.process_score p.1 p.2 X
          (elem_wise_square X) i) 0) / (fms.length : ℝ) := by
    rw [← hfun]
  rw [hpi]
  have hterm : ∀ q ∈ fms.zip hypers,
      0 ≤ predict_score_point MyFMClassifier.process_score q.1 q.2 X (elem_wise_square X) i ∧
        predict_score_point MyFMClassifier.process_score q.1 q.2 X (elem_wise_square X) i ≤ 1 :=
    fun q _ => ⟨clf_process_score_nonneg _ _, clf_process_score_le_one _ _⟩
  have hb := foldl_predict_bounds fms hypers X (elem_wise_square X) i hterm
  have hnne : fms.length ≠ 0 := fun h0 => hne (List.length_eq_zero.mp h0)
  have hnpos : (0:ℝ) < (fms.length : ℝ) := by
    exact_mod_cast Nat.pos_of_ne_zero hnne
  constructor
  · exact div_nonneg hb.1 hnpos.le
  · rw [div_le_one hnpos]
    have hzle : (fms.zip hypers).length ≤ fms.length := by
      rw [List.length_zip]
      exact Nat.min_le_left _ _
    have hzlen : ((fms.zip hypers).length : ℝ) ≤ (fms.length : ℝ) := by
      exact_mod_cast hzle
    linarith [hb.2]

/-- Witness for C7: a single all-zero sample with `alpha = 0` on a 1×1 input. -/
theorem claim_C7_witness :
    ([(⟨0, fun _ => 0, fun _ _ => 0⟩ : FM 1 1)] ≠ []) ∧
      [(⟨0, fun _ => 0, fun _ _ => 0⟩ : FM 1 1)].length = [(⟨0⟩ : Hyper)].length ∧
      (∀ h ∈ [(⟨0⟩ : Hyper)], 0 ≤ h.alpha) ∧
      ∀ p, MyFMClassifier.predict_proba (m := 1)
          [(⟨0, fun _ => 0, fun _ _ => 0⟩ : FM 1 1)] [⟨0⟩] (fun _ _ => 0) = Except.ok p →
        ∀ i, 0 ≤ p i ∧ p i ≤ 1 := by
  have ha : ∀ h ∈ [(⟨0⟩ : Hyper)], 0 ≤ h.alpha := by
    intro h hh
    rw [List.mem_singleton] at hh
    subst hh
    exact le_refl 0
  exact ⟨by simp, rfl, ha,
    claim_C7 [⟨0, fun _ => 0, fun _ _ => 0⟩] [⟨0⟩] (fun _ _ => 0) (by simp) rfl ha⟩

end MyFM
